import Mathlib

/-!
Verification of the weight-to-count resolver core of the Weigence
automatic-inventory firmware.

The firmware consists of two Arduino sketches.  `Magazzino.ino` performs a
dual-class search: a nested loop over a class-1 count `m` and a remainder
scan over `delta ∈ [-EPSILON, EPSILON]` that looks for a non-negative
multiple of the class-2 unit weight.  `AutomaticInventory.ino` performs a
single-class nearest-multiple resolution (`calculateFabricObjectCount`)
wrapped in a retry-once verification policy with a sticky buzzer flag
(`processScaleReading`).

C `int`/`long` arithmetic is modelled with unbounded `Int` together with
C's truncated division `Int.tdiv` and remainder `Int.tmod` (C99 `/` and `%`
truncate toward zero).  Two models of the candidate count
`round((float)reading / w)` are given: `roundAway`, the exact-rational
idealization (rounding half away from zero, the semantics of C `round`),
and `roundAwayFloat`, the IEEE-754 binary32 pipeline itself (integer to
float conversion and correctly rounded division, both rounding to nearest
with ties to even, then C `round`).  The two agree at halfway readings
below `2^24` and diverge beyond, where the single-precision conversion
already loses the halfway information.
-/

namespace Weigence

/-- Weight of a factory (new) object in scale units: `WEIGHT_OF_FABRIC_OBJ`,
defined as `70` in both sketches. -/
def WEIGHT_OF_FABRIC_OBJ : Int := 70

/-- Weight of a reused object in scale units: `WEIGHT_OF_REUSED_OBJ`,
defined as `85` in `Magazzino.ino`. -/
def WEIGHT_OF_REUSED_OBJ : Int := 85

/-- Accepted tolerance when matching weights: `EPSILON`, defined as `3` in
both sketches. -/
def EPSILON : Int := 3

/-- Inner `delta` scan of the dual-class search in `loop` (`Magazzino.ino`),
starting at `delta` with `steps` iterations left: return
`adjusted_remainder / w2` for the first `delta` whose
`adjusted_remainder = remainder + delta` is non-negative and divisible by
`w2`, mirroring
`for (delta = -EPSILON; delta <= EPSILON; delta++) { ... }`. -/
def innerScanAux (remainder w2 : Int) : Int → Nat → Option Int
  | _, 0 => none
  | delta, steps + 1 =>
    let adjusted_remainder := remainder + delta
    if 0 ≤ adjusted_remainder ∧ adjusted_remainder.tmod w2 = 0 then
      some (adjusted_remainder.tdiv w2)
    else
      innerScanAux remainder w2 (delta + 1) steps

/-- The full inner scan: `delta` runs from `-tolerance` to `tolerance`
inclusive, which is `(2·tolerance + 1).toNat` iterations (zero when
`tolerance < 0`, exactly as the C loop guard behaves). -/
def innerScan (remainder w2 tolerance : Int) : Option Int :=
  innerScanAux remainder w2 (-tolerance) (2 * tolerance + 1).toNat

/-- Outer loop of the dual-class search in `loop` (`Magazzino.ino`),
starting at class-1 count `m` with `steps` iterations left: the first `m`
whose inner scan succeeds yields the result pair, mirroring the `found`
flag and the double `break`. -/
def outerScanAux (reading w1 w2 tolerance : Int) : Int → Nat → Option (Int × Int)
  | _, 0 => none
  | m, steps + 1 =>
    match innerScan (reading - m * w1) w2 tolerance with
    | some n => some (m, n)
    | none => outerScanAux reading w1 w2 tolerance (m + 1) steps

/-- The dual-class combination search of `loop` (`Magazzino.ino`),
abstracted over the configured constants: `m` runs from `0` to
`reading / w1` (C truncated division) inclusive, so
`(reading.tdiv w1 + 1).toNat` iterations; `some (m, n)` models
`count_fabric = m, count_reused = n, found = true`, and `none` models the
counts remaining at `-1`. -/
def resolve_dual (reading w1 w2 tolerance : Int) : Option (Int × Int) :=
  outerScanAux reading w1 w2 tolerance 0 (reading.tdiv w1 + 1).toNat

/-- The candidate count `round((float)reading / unit_weight)` computed by
`calculateFabricObjectCount` (`AutomaticInventory.ino`), with the `float`
division idealized as exact rational division; C `round` rounds half away
from zero, so for `0 ≤ reading` this is `⌊reading/w + 1/2⌋`, computed as
truncated division of non-negative integers.  The idealization matches the
target's binary32 pipeline for readings below `2^24` but not beyond;
`roundAwayFloat` below models the float pipeline itself. -/
def roundAway (reading unit_weight : Int) : Int :=
  if 0 ≤ reading then
    (2 * reading + unit_weight).tdiv (2 * unit_weight)
  else
    -((2 * (-reading) + unit_weight).tdiv (2 * unit_weight))

/-- Round a rational to the nearest integer, ties to even — the IEEE-754
default rounding mode, used by the target both for the integer-to-float
conversion and for the float division result. -/
def rne (q : ℚ) : Int :=
  if q - ⌊q⌋ < 1 / 2 then ⌊q⌋
  else if 1 / 2 < q - ⌊q⌋ then ⌊q⌋ + 1
  else if ⌊q⌋ % 2 = 0 then ⌊q⌋ else ⌊q⌋ + 1

/-- Exponent of one unit in the last place of the IEEE-754 binary32 value
nearest to `q`: the significand holds 24 bits, so the floats in the binade
`[2^e, 2^(e+1))` are the multiples of `2^(e−23)`; the exponent is clamped
at `−149`, the ulp of the subnormal range.  (Overflow at `2^128` is not
modelled; every quantity this program produces stays far below it.) -/
def ulpExp (q : ℚ) : Int :=
  max (Int.log 2 q - 23) (-149)

/-- Value of the IEEE-754 binary32 float nearest to `q`, rounding to
nearest with ties to even: `q` is scaled by its ulp, rounded to an integer
significand, and scaled back; negative values by sign symmetry, zero
exactly. -/
def toFloat32 (q : ℚ) : ℚ :=
  if q = 0 then 0
  else if 0 < q then (rne (q / 2 ^ ulpExp q) : ℚ) * 2 ^ ulpExp q
  else -((rne (-q / 2 ^ ulpExp (-q)) : ℚ) * 2 ^ ulpExp (-q))

/-- IEEE-754 binary32 division: correctly rounded, i.e. the float nearest
to the exact quotient (ties to even). -/
def float32Div (a b : ℚ) : ℚ :=
  toFloat32 (a / b)

/-- C `round`: rounds half away from zero.  Its `float` argument is
promoted to `double` exactly, so no further rounding occurs before
`round` itself. -/
def cRound (q : ℚ) : Int :=
  if 0 ≤ q then ⌊q + 1 / 2⌋ else -⌊-q + 1 / 2⌋

/-- The candidate count exactly as the target computes it:
`round((float)reading / WEIGHT_OF_FABRIC_OBJ)` — the `long` reading
converted to binary32 (ties to even), the `int` unit weight converted to
binary32, the single-precision correctly rounded division, then C `round`
(half away from zero).  `roundAway` is the exact-arithmetic idealization
of this pipeline. -/
def roundAwayFloat (reading unit_weight : Int) : Int :=
  cRound (float32Div (toFloat32 (reading : ℚ)) (toFloat32 (unit_weight : ℚ)))

/-- `calculateFabricObjectCount` (`AutomaticInventory.ino`) abstracted over
the configured constants: the candidate count is the rounded quotient, and
it is accepted exactly when
`abs(reading - count*unit_weight) ≤ tolerance_multiplier*count`.
`some count` models `return true` with the out-parameter set; `none`
models `return false`. -/
def resolve_single (reading unit_weight tolerance_multiplier : Int) : Option Int :=
  let count_fabric := roundAway reading unit_weight
  let expectedWeight := count_fabric * unit_weight
  let delta := |reading - expectedWeight|
  if delta ≤ tolerance_multiplier * count_fabric then some count_fabric else none

/-- `calculateFabricObjectCount` at the constants configured in
`AutomaticInventory.ino` (`WEIGHT_OF_FABRIC_OBJ = 70`, `EPSILON = 3`). -/
def calculateFabricObjectCount (reading : Int) : Option Int :=
  resolve_single reading WEIGHT_OF_FABRIC_OBJ EPSILON

/-- Outcome of one verification cycle of `processScaleReading`
(`AutomaticInventory.ino`): scale not ready, negative-reading auto-tare
abort, accepted count shown on the LCD, or confirmed failure with the
error screen. -/
inductive CycleOutcome where
  | unavailable
  | aborted
  | accepted (count_fabric : Int)
  | confirmedFailure
deriving DecidableEq

/-- Whether a cycle outcome carries an accepted count. -/
def isAccepted : CycleOutcome → Bool
  | .accepted _ => true
  | _ => false

/-- `processScaleReading` (`AutomaticInventory.ino`).  `ready` models
`scale.is_ready()`; `r1` and `r2` model the first and the (only possible)
second `scale.get_units(SCALE_READINGS)` sample; `isBuzzerOn` is the sticky
escalation flag.  The result carries the cycle outcome, the new flag state
(`deactivateBuzzer` on accept, auto-tare and ready paths; `activateBuzzer`
on confirmed failure), and the number of scale samples consumed. -/
def processScaleReading (ready : Bool) (r1 r2 : Int) (isBuzzerOn : Bool) :
    CycleOutcome × Bool × Nat :=
  if ready = false then
    (.unavailable, isBuzzerOn, 0)
  else if r1 < 0 then
    (.aborted, false, 1)
  else
    match calculateFabricObjectCount r1 with
    | some c => (.accepted c, false, 1)
    | none =>
      match calculateFabricObjectCount r2 with
      | some c => (.accepted c, false, 2)
      | none => (.confirmedFailure, true, 2)

/-- Inputs of one `loop` iteration of `AutomaticInventory.ino` that falls
inside the reading interval: tare-button level and the up-to-two scale
samples. -/
structure CycleInput where
  ready : Bool
  tarePressed : Bool
  r1 : Int
  r2 : Int
deriving DecidableEq

/-- One `loop` iteration of `AutomaticInventory.ino` inside the reading
interval: `handleTareButton` (which calls `deactivateBuzzer` when the
button is high) followed by `processScaleReading`.  Returns the cycle
outcome and the new sticky-flag state. -/
def tick (inp : CycleInput) (isBuzzerOn : Bool) : CycleOutcome × Bool :=
  let afterTare := if inp.tarePressed then false else isBuzzerOn
  let result := processScaleReading inp.ready inp.r1 inp.r2 afterTare
  (result.1, result.2.1)

/-- The sticky escalation flag after a sequence of `loop` iterations of
`AutomaticInventory.ino`, starting from `isBuzzerOn`. -/
def runFlag (inputs : List CycleInput) (isBuzzerOn : Bool) : Bool :=
  inputs.foldl (fun b inp => (tick inp b).2) isBuzzerOn

/-- One `loop` iteration of `Magazzino.ino` inside the reading interval.
The first component records whether `scale.tare()` ran (tare button, or the
negative-reading auto-tare); the second is the dual-class search result,
displayed on the LCD exactly when it is `some` (the C code displays when
`count_fabric >= 0 && count_reused >= 0`, and the counts leave `-1` only
together).  Note the negative-reading branch of `Magazzino.ino` does not
return: the search still runs on the negative `reading`. -/
def magazzinoLoop (ready tarePressed : Bool) (reading : Int) :
    Bool × Option (Int × Int) :=
  if ready then
    (tarePressed || decide (reading < 0),
     resolve_dual reading WEIGHT_OF_FABRIC_OBJ WEIGHT_OF_REUSED_OBJ EPSILON)
  else
    (tarePressed, none)

/-- The inner scan returns the quotient of the first matching `delta`:
there is a witness offset `d` in the scanned window with
`remainder + d = n·w2`, `n ≥ 0`, and every earlier offset fails the
divisibility test. -/
theorem innerScanAux_sound {w2 : Int} (hw2 : 0 < w2) :
    ∀ (steps : Nat) (delta remainder n : Int),
      innerScanAux remainder w2 delta steps = some n →
      ∃ d : Int, delta ≤ d ∧ d < delta + steps ∧
        remainder + d = n * w2 ∧ 0 ≤ n ∧
        ∀ d', delta ≤ d' → d' < d →
          ¬(0 ≤ remainder + d' ∧ (remainder + d').tmod w2 = 0) := by
  intro steps
  induction steps with
  | zero => intro delta remainder n h; simp [innerScanAux] at h
  | succ steps ih =>
    intro delta remainder n h
    simp only [innerScanAux] at h
    by_cases hc : 0 ≤ remainder + delta ∧ (remainder + delta).tmod w2 = 0
    · rw [if_pos hc] at h
      obtain ⟨hpos, hmod⟩ := hc
      have hn : n = (remainder + delta).tdiv w2 := (Option.some_inj.mp h).symm
      refine ⟨delta, le_refl _, by push_cast; omega, ?_, ?_, ?_⟩
      · rw [hn]; exact (Int.tdiv_mul_cancel_of_tmod_eq_zero hmod).symm
      · rw [hn]; exact Int.tdiv_nonneg hpos (le_of_lt hw2)
      · intro d' h1 h2; omega
    · rw [if_neg hc] at h
      obtain ⟨d, hd1, hd2, hd3, hd4, hd5⟩ := ih (delta + 1) remainder n h
      refine ⟨d, by omega, by push_cast at hd2 ⊢; omega, hd3, hd4, ?_⟩
      intro d' h1 h2
      rcases eq_or_lt_of_le h1 with heq | hlt
      · rw [← heq]; exact hc
      · exact hd5 d' (by omega) h2

/-- If some offset `d` inside the scanned window passes the divisibility
test, the inner scan succeeds. -/
theorem innerScanAux_complete {w2 : Int} :
    ∀ (steps : Nat) (delta remainder d : Int),
      delta ≤ d → d < delta + steps →
      0 ≤ remainder + d → (remainder + d).tmod w2 = 0 →
      ∃ n, innerScanAux remainder w2 delta steps = some n := by
  intro steps
  induction steps with
  | zero => intro delta remainder d h1 h2 h3 h4; omega
  | succ steps ih =>
    intro delta remainder d h1 h2 h3 h4
    simp only [innerScanAux]
    by_cases hc : 0 ≤ remainder + delta ∧ (remainder + delta).tmod w2 = 0
    · exact ⟨_, by rw [if_pos hc]⟩
    · rw [if_neg hc]
      have hne : delta ≠ d := by rintro rfl; exact hc ⟨h3, h4⟩
      exact ih (delta + 1) remainder d (by omega) (by push_cast at h2 ⊢; omega) h3 h4

/-- Soundness of the full inner scan: the returned `n` is non-negative,
reconstructs the remainder within the tolerance, and is the least
non-negative count doing so. -/
theorem innerScan_sound {remainder w2 tolerance n : Int} (hw2 : 0 < w2)
    (h : innerScan remainder w2 tolerance = some n) :
    0 ≤ n ∧ |n * w2 - remainder| ≤ tolerance ∧
      ∀ n' : Int, 0 ≤ n' → |n' * w2 - remainder| ≤ tolerance → n ≤ n' := by
  rcases le_or_lt 0 tolerance with ht | ht
  · have hcast : ((2 * tolerance + 1).toNat : Int) = 2 * tolerance + 1 :=
      Int.toNat_of_nonneg (by omega)
    obtain ⟨d, hd1, hd2, hd3, hd4, hd5⟩ :=
      innerScanAux_sound hw2 (2 * tolerance + 1).toNat (-tolerance) remainder n h
    rw [hcast] at hd2
    refine ⟨hd4, by rw [show n * w2 - remainder = d by omega]; rw [abs_le]; omega, ?_⟩
    intro n' hn' hb'
    set d' := n' * w2 - remainder with hd'
    rw [abs_le] at hb'
    by_contra hlt
    push_neg at hlt
    have hdd : d' < d := by nlinarith
    refine hd5 d' (by omega) hdd ⟨?_, ?_⟩
    · have h0 : remainder + d' = n' * w2 := by omega
      rw [h0]; positivity
    · have h0 : remainder + d' = n' * w2 := by omega
      rw [h0]; exact Int.mul_tmod_left n' w2
  · exfalso
    have h0 : (2 * tolerance + 1).toNat = 0 := by omega
    rw [innerScan, h0] at h
    simp [innerScanAux] at h

/-- Completeness of the full inner scan: if any non-negative count
reconstructs the remainder within the tolerance, the scan succeeds. -/
theorem innerScan_complete {remainder w2 tolerance n' : Int} (hw2 : 0 < w2)
    (ht : 0 ≤ tolerance) (hn' : 0 ≤ n')
    (hb : |n' * w2 - remainder| ≤ tolerance) :
    ∃ n, innerScan remainder w2 tolerance = some n := by
  have hcast : ((2 * tolerance + 1).toNat : Int) = 2 * tolerance + 1 :=
    Int.toNat_of_nonneg (by omega)
  rw [abs_le] at hb
  refine innerScanAux_complete (2 * tolerance + 1).toNat (-tolerance) remainder
    (n' * w2 - remainder) (by omega) (by rw [hcast]; omega) ?_ ?_
  · have h0 : remainder + (n' * w2 - remainder) = n' * w2 := by omega
    rw [h0]; positivity
  · have h0 : remainder + (n' * w2 - remainder) = n' * w2 := by omega
    rw [h0]; exact Int.mul_tmod_left n' w2

/-- The outer loop returns the first `m` whose inner scan succeeds. -/
theorem outerScanAux_sound {reading w1 w2 tolerance : Int} :
    ∀ (steps : Nat) (m0 m n : Int),
      outerScanAux reading w1 w2 tolerance m0 steps = some (m, n) →
      m0 ≤ m ∧ m < m0 + steps ∧
        innerScan (reading - m * w1) w2 tolerance = some n ∧
        ∀ m', m0 ≤ m' → m' < m →
          innerScan (reading - m' * w1) w2 tolerance = none := by
  intro steps
  induction steps with
  | zero => intro m0 m n h; simp [outerScanAux] at h
  | succ steps ih =>
    intro m0 m n h
    rw [outerScanAux] at h
    cases heq : innerScan (reading - m0 * w1) w2 tolerance with
    | some k =>
      rw [heq] at h
      obtain ⟨rfl, rfl⟩ : m0 = m ∧ k = n := by
        have h0 := Option.some_inj.mp h
        exact ⟨congrArg Prod.fst h0, congrArg Prod.snd h0⟩
      exact ⟨le_refl _, by push_cast; omega, heq, fun m' h1 h2 => by omega⟩
    | none =>
      rw [heq] at h
      obtain ⟨h1, h2, h3, h4⟩ := ih (m0 + 1) m n h
      refine ⟨by omega, by push_cast at h2 ⊢; omega, h3, ?_⟩
      intro m' hm1 hm2
      rcases eq_or_lt_of_le hm1 with rfl | hlt
      · exact heq
      · exact h4 m' (by omega) hm2

/-- If the inner scan succeeds for some `m'` inside the outer window, the
outer loop succeeds. -/
theorem outerScanAux_complete {reading w1 w2 tolerance : Int} :
    ∀ (steps : Nat) (m0 m' : Int),
      m0 ≤ m' → m' < m0 + steps →
      (innerScan (reading - m' * w1) w2 tolerance).isSome →
      (outerScanAux reading w1 w2 tolerance m0 steps).isSome := by
  intro steps
  induction steps with
  | zero => intro m0 m' h1 h2 h3; omega
  | succ steps ih =>
    intro m0 m' h1 h2 h3
    rw [outerScanAux]
    cases heq : innerScan (reading - m0 * w1) w2 tolerance with
    | some k => simp
    | none =>
      have hne : m0 ≠ m' := by
        rintro rfl; rw [heq] at h3; simp at h3
      exact ih (m0 + 1) m' (by omega) (by push_cast at h2 ⊢; omega) h3

/-- Claim C1. For every reading ≥ 0, unit weights `w1, w2 > 0` and tolerance
≥ 0: if `resolve_dual` returns `Resolved{m, n}`, then
`|m·w1 + n·w2 − reading| ≤ tolerance`, and no pair `(m', n')` of
non-negative integers with `m' < m`, or with `m' = m` and `n' < n`, also
satisfies the bound — the first-match tie-break of the ascending nested
search. -/
theorem resolve_dual_first_match (reading w1 w2 tolerance m n : Int)
    (hr : 0 ≤ reading) (hw1 : 0 < w1) (hw2 : 0 < w2) (ht : 0 ≤ tolerance)
    (h : resolve_dual reading w1 w2 tolerance = some (m, n)) :
    |m * w1 + n * w2 - reading| ≤ tolerance ∧
      ∀ m' n' : Int, 0 ≤ m' → 0 ≤ n' →
        (m' < m ∨ (m' = m ∧ n' < n)) →
        ¬|m' * w1 + n' * w2 - reading| ≤ tolerance := by
  rw [resolve_dual] at h
  obtain ⟨hm0, hmlt, hinner, hfirst⟩ :=
    outerScanAux_sound (reading.tdiv w1 + 1).toNat 0 m n h
  obtain ⟨hn0, hbound, hmin⟩ := innerScan_sound hw2 hinner
  constructor
  · rw [show m * w1 + n * w2 - reading = n * w2 - (reading - m * w1) by ring]
    exact hbound
  · rintro m' n' hm' hn' (hlt | ⟨heq, hnlt⟩) hb
    · have hb' : |n' * w2 - (reading - m' * w1)| ≤ tolerance := by
        rw [show n' * w2 - (reading - m' * w1) = m' * w1 + n' * w2 - reading by ring]
        exact hb
      obtain ⟨n0, hn0eq⟩ := innerScan_complete hw2 ht hn' hb'
      rw [hfirst m' hm' hlt] at hn0eq
      exact Option.noConfusion hn0eq
    · rw [heq] at hb
      have hb' : |n' * w2 - (reading - m * w1)| ≤ tolerance := by
        rw [show n' * w2 - (reading - m * w1) = m * w1 + n' * w2 - reading by ring]
        exact hb
      have := hmin n' hn' hb'
      omega

/-- Witness for `resolve_dual_first_match` at the spec scenario
`resolve_dual(155, 70, 85, 3) = Resolved{1, 1}`. -/
theorem resolve_dual_first_match_witness :
    |(1 : Int) * 70 + 1 * 85 - 155| ≤ 3 ∧
      ∀ m' n' : Int, 0 ≤ m' → 0 ≤ n' →
        (m' < 1 ∨ (m' = 1 ∧ n' < 1)) →
        ¬|m' * 70 + n' * 85 - 155| ≤ 3 :=
  resolve_dual_first_match 155 70 85 3 1 1 (by decide) (by decide) (by decide)
    (by decide) (by decide)

/-- Claim C3, counterexample. At `reading = 84`, `w1 = 70`, `w2 = 85`,
`tolerance = 3`, the search returns `Resolved{0, 1}` even though no pair
inside the claimed bounds (`m ≤ reading/w1 = 1` and
`n ≤ (reading − m·w1)/w2 = 0`, i.e. only `(0,0)` and `(1,0)`) satisfies the
tolerance: the inner scan accepts adjusted remainders up to
`reading − m·w1 + tolerance`, so `n = 1` with `1·85 = 84 + 1` is found
outside the claimed `n` range. -/
theorem resolve_dual_bounds_cex :
    resolve_dual 84 70 85 3 = some (0, 1) ∧
      (84 : Int).tdiv 70 = 1 ∧
      ((84 : Int) - 0 * 70).tdiv 85 = 0 ∧
      ((84 : Int) - 1 * 70).tdiv 85 = 0 ∧
      ¬|(0 : Int) * 70 + 0 * 85 - 84| ≤ 3 ∧
      ¬|(1 : Int) * 70 + 0 * 85 - 84| ≤ 3 :=
  ⟨by decide, by decide, by decide, by decide, by decide, by decide⟩

/-- Claim C3, amended. For every reading ≥ 0, `w1, w2 > 0`, tolerance ≥ 0:
`resolve_dual` returns `Unresolved` if and only if no pair `(m, n)` with
`m` in `0..=reading/w1` (truncated division) and `n ≥ 0` satisfies
`|m·w1 + n·w2 − reading| ≤ tolerance`.  The outer bound on `m` is as the
claim states, but the inner scan admits every `n ≥ 0` whose remainder lies
within the tolerance window — up to `(reading − m·w1 + tolerance)/w2`, not
`(reading − m·w1)/w2`. -/
theorem resolve_dual_unresolved_iff (reading w1 w2 tolerance : Int)
    (hr : 0 ≤ reading) (hw1 : 0 < w1) (hw2 : 0 < w2) (ht : 0 ≤ tolerance) :
    resolve_dual reading w1 w2 tolerance = none ↔
      ¬∃ m n : Int, 0 ≤ m ∧ m ≤ reading.tdiv w1 ∧ 0 ≤ n ∧
        |m * w1 + n * w2 - reading| ≤ tolerance := by
  have htd : 0 ≤ reading.tdiv w1 := Int.tdiv_nonneg hr (le_of_lt hw1)
  have hcast : ((reading.tdiv w1 + 1).toNat : Int) = reading.tdiv w1 + 1 :=
    Int.toNat_of_nonneg (by omega)
  constructor
  · intro hnone
    rintro ⟨m, n, hm0, hmB, hn0, hb⟩
    have hb' : |n * w2 - (reading - m * w1)| ≤ tolerance := by
      rw [show n * w2 - (reading - m * w1) = m * w1 + n * w2 - reading by ring]
      exact hb
    obtain ⟨n0, hn0eq⟩ := innerScan_complete hw2 ht hn0 hb'
    have hsome := outerScanAux_complete (reading.tdiv w1 + 1).toNat 0 m hm0
      (by rw [hcast]; omega) (by rw [hn0eq]; simp)
    rw [resolve_dual] at hnone
    rw [hnone] at hsome
    simp at hsome
  · intro hno
    cases hcase : resolve_dual reading w1 w2 tolerance with
    | none => rfl
    | some p =>
      exfalso
      obtain ⟨m, n⟩ := p
      rw [resolve_dual] at hcase
      obtain ⟨hm0, hmlt, hinner, hfirst⟩ :=
        outerScanAux_sound (reading.tdiv w1 + 1).toNat 0 m n hcase
      obtain ⟨hn0, hbound, hmin⟩ := innerScan_sound hw2 hinner
      refine hno ⟨m, n, hm0, ?_, hn0, ?_⟩
      · rw [hcast] at hmlt; omega
      · rw [show m * w1 + n * w2 - reading = n * w2 - (reading - m * w1) by ring]
        exact hbound

/-- Witness for `resolve_dual_unresolved_iff` at the spec scenario
`resolve_dual(1000000, 70, 85, 3)`: forward direction is usable on the
concrete instance. -/
theorem resolve_dual_unresolved_iff_witness :
    resolve_dual 69 70 85 3 = none ↔
      ¬∃ m n : Int, 0 ≤ m ∧ m ≤ (69 : Int).tdiv 70 ∧ 0 ≤ n ∧
        |m * 70 + n * 85 - 69| ≤ 3 :=
  resolve_dual_unresolved_iff 69 70 85 3 (by decide) (by decide) (by decide)
    (by decide)

/-- Claim C9. With the configured constants (`w1 = 70`, `w2 = 85`,
`tolerance = 3`), the dual-class search resolves every reading `r` with
`−3 ≤ r ≤ 3` — strictly negative drift included — to `Resolved{0, 0}`:
the outer loop still runs with `m = 0` (C truncated division sends small
negative readings to `0`) and the delta scan hits adjusted remainder `0`. -/
theorem resolve_dual_small_drift (r : Int)
    (h1 : -EPSILON ≤ r) (h2 : r ≤ EPSILON) :
    resolve_dual r WEIGHT_OF_FABRIC_OBJ WEIGHT_OF_REUSED_OBJ EPSILON
      = some (0, 0) := by
  simp only [EPSILON] at h1 h2
  interval_cases r <;> decide

/-- Witness for `resolve_dual_small_drift` at the strictly negative
reading `r = −1`. -/
theorem resolve_dual_small_drift_witness :
    resolve_dual (-1) WEIGHT_OF_FABRIC_OBJ WEIGHT_OF_REUSED_OBJ EPSILON
      = some (0, 0) :=
  resolve_dual_small_drift (-1) (by decide) (by decide)
example : resolve_single 70 70 3 = some 1 := by decide
example : resolve_single 145 70 3 = some 2 := by decide

/-- Claim C2. For every reading ≥ 0 and `unit_weight > 0`: if
`resolve_single` returns `Resolved{c}`, the reconstructed total weight
`c·unit_weight` lies within the count-scaled tolerance
`tolerance_multiplier·c` of the input reading. -/
theorem resolve_single_within_tolerance
    (reading unit_weight tolerance_multiplier c : Int)
    (hr : 0 ≤ reading) (hw : 0 < unit_weight)
    (h : resolve_single reading unit_weight tolerance_multiplier = some c) :
    |reading - c * unit_weight| ≤ tolerance_multiplier * c := by
  simp only [resolve_single] at h
  split at h
  · next hc =>
      obtain rfl := Option.some_inj.mp h
      exact hc
  · next => exact Option.noConfusion h

/-- Witness for `resolve_single_within_tolerance` at the spec scenario
`resolve_single(145, 70, 3) = Resolved{2}` (deviation 5 ≤ tolerance 6). -/
theorem resolve_single_within_tolerance_witness :
    |(145 : Int) - 2 * 70| ≤ 3 * 2 :=
  resolve_single_within_tolerance 145 70 3 2 (by decide) (by decide) (by decide)

/-- Claim C4, counterexample. The claim asserts
`resolve_single(w/2 − 1, w, 0) = Unresolved` for every `w ≥ 2`, but at
`w = 2` the reading `w/2 − 1 = 0` is zero, rounds to count `0` with zero
deviation, and is accepted: `Resolved{0}`, not `Unresolved` (likewise at
`w = 3`). -/
theorem resolve_single_halfbound_cex :
    (2 : Int).tdiv 2 - 1 = 0 ∧
      resolve_single ((2 : Int).tdiv 2 - 1) 2 0 = some 0 :=
  ⟨by decide, by decide⟩

/-- Claim C4, amended. When the rounded candidate count is `0` the allowed
deviation is exactly zero: `resolve_single(0, w, t) = Resolved{0}` for
every `w > 0` and `t ≥ 0`; every non-zero reading that rounds to count `0`
returns `Unresolved` rather than silently resolving to zero objects; and
`resolve_single(w/2 − 1, w, 0) = Unresolved` for every `w ≥ 4` (for
`w ∈ {2, 3}` the reading `w/2 − 1` is `0`, which resolves to
`Resolved{0}`). -/
theorem resolve_single_zero_edge (reading unit_weight tolerance_multiplier : Int)
    (hw : 0 < unit_weight) (ht : 0 ≤ tolerance_multiplier) :
    resolve_single 0 unit_weight tolerance_multiplier = some 0 ∧
      (reading ≠ 0 → roundAway reading unit_weight = 0 →
        resolve_single reading unit_weight tolerance_multiplier = none) ∧
      (4 ≤ unit_weight →
        resolve_single (unit_weight.tdiv 2 - 1) unit_weight 0 = none) := by
  refine ⟨?_, ?_, ?_⟩
  · have hround0 : roundAway 0 unit_weight = 0 := by
      rw [roundAway, if_pos (le_refl (0 : Int))]
      exact Int.tdiv_eq_zero_of_lt (by omega) (by omega)
    simp [resolve_single, hround0]
  · intro hne h0
    have hfalse : ¬(|reading - 0 * unit_weight| ≤ tolerance_multiplier * 0) := by
      rw [zero_mul, sub_zero, mul_zero]
      intro hcon
      exact hne (abs_eq_zero.mp (le_antisymm hcon (abs_nonneg reading)))
    simp only [resolve_single, h0]
    rw [if_neg hfalse]
  · intro h4
    have hediv : unit_weight.tdiv 2 = unit_weight / 2 :=
      Int.tdiv_eq_ediv (by omega) (by omega)
    have hround : roundAway (unit_weight.tdiv 2 - 1) unit_weight = 0 := by
      rw [roundAway, if_pos (by rw [hediv]; omega)]
      apply Int.tdiv_eq_zero_of_lt
      · rw [hediv]; omega
      · rw [hediv]; omega
    have hfalse :
        ¬(|unit_weight.tdiv 2 - 1 - 0 * unit_weight| ≤ (0 : Int) * 0) := by
      rw [zero_mul, sub_zero, mul_zero]
      intro hcon
      rw [abs_le] at hcon
      rw [hediv] at hcon
      omega
    simp only [resolve_single, hround]
    rw [if_neg hfalse]

/-- Witness for `resolve_single_zero_edge` at `w = 70`, `t = 3`,
`reading = 1` (the spec boundary scenarios). -/
theorem resolve_single_zero_edge_witness :
    resolve_single 0 70 3 = some 0 ∧ resolve_single (1 : Int) 70 3 = none ∧
      resolve_single ((70 : Int).tdiv 2 - 1) 70 0 = none := by
  obtain ⟨h1, h2, h3⟩ := resolve_single_zero_edge 1 70 3 (by decide) (by decide)
  exact ⟨h1, h2 (by decide) (by decide), h3 (by decide)⟩

/-- Claim C8, counterexample. With `tolerance_multiplier = 0` (allowed by
the claim's `tolerance_multiplier ≥ 0`), the exact negative multiple
`reading = −70` of `unit_weight = 70` rounds to candidate count `−1`
(round half away from zero) and satisfies
`abs(−70 − (−1)·70) = 0 ≤ 0·(−1) = 0`, so the resolver accepts it:
`Resolved{−1}`, not `Unresolved`. -/
theorem resolve_single_negative_cex :
    resolve_single (-70) 70 0 = some (-1) := by decide

/-- Claim C8, amended. For every reading < 0, `unit_weight > 0` and strictly
positive `tolerance_multiplier` (the deployed value is `EPSILON = 3`): the
rounded candidate count is ≤ 0 and the acceptance inequality
`abs(reading − count·unit_weight) ≤ tolerance_multiplier·count` is
unsatisfiable, so `resolve_single` rejects every negative reading even
without the upstream precondition check.  (With `tolerance_multiplier = 0`
an exact negative multiple is accepted with a negative count — see the
counterexample — so strict positivity is required.) -/
theorem resolve_single_negative (reading unit_weight tolerance_multiplier : Int)
    (hr : reading < 0) (hw : 0 < unit_weight) (ht : 0 < tolerance_multiplier) :
    roundAway reading unit_weight ≤ 0 ∧
      resolve_single reading unit_weight tolerance_multiplier = none := by
  have hneg : ¬(0 ≤ reading) := by omega
  have hcount : roundAway reading unit_weight ≤ 0 := by
    rw [roundAway, if_neg hneg]
    have h0 : 0 ≤ (2 * (-reading) + unit_weight).tdiv (2 * unit_weight) :=
      Int.tdiv_nonneg (by omega) (by omega)
    omega
  refine ⟨hcount, ?_⟩
  have hfalse : ¬(|reading - roundAway reading unit_weight * unit_weight| ≤
      tolerance_multiplier * roundAway reading unit_weight) := by
    intro hcon
    rcases lt_or_eq_of_le hcount with hlt | heq0
    · have h1 : tolerance_multiplier * roundAway reading unit_weight < 0 :=
        mul_neg_of_pos_of_neg ht hlt
      have h2 := abs_nonneg (reading - roundAway reading unit_weight * unit_weight)
      omega
    · rw [heq0, zero_mul, sub_zero, mul_zero] at hcon
      have h3 : reading = 0 :=
        abs_eq_zero.mp (le_antisymm hcon (abs_nonneg reading))
      omega
  simp only [resolve_single]
  rw [if_neg hfalse]

/-- Witness for `resolve_single_negative` at `reading = −1`, the deployed
constants `w = 70`, `t = 3`. -/
theorem resolve_single_negative_witness :
    roundAway (-1) 70 ≤ 0 ∧ resolve_single (-1) 70 3 = none :=
  resolve_single_negative (-1) 70 3 (by decide) (by decide) (by decide)

/-- Ties-to-even rounding fixes any rational lying less than a half above
an integer: `z ≤ q < z + 1/2` rounds to `z`. -/
theorem rne_eq_of_lt {q : ℚ} {z : Int} (h1 : (z : ℚ) ≤ q)
    (h2 : q < (z : ℚ) + 1 / 2) : rne q = z := by
  have hf : ⌊q⌋ = z := Int.floor_eq_iff.mpr ⟨h1, by linarith⟩
  simp only [rne, hf]
  rw [if_pos (show q - (z : ℚ) < 1 / 2 by linarith)]

/-- Ties-to-even rounding of an exact integer. -/
theorem rne_intCast (z : Int) : rne (z : ℚ) = z :=
  rne_eq_of_lt (le_refl _) (by linarith)

/-- Ties-to-even rounding at an exact halfway point with even floor: the
tie resolves downward, to the even significand. -/
theorem rne_int_add_half_even {z : Int} (hz : z % 2 = 0) :
    rne ((z : ℚ) + 1 / 2) = z := by
  have hf : ⌊(z : ℚ) + 1 / 2⌋ = z :=
    Int.floor_eq_iff.mpr ⟨by linarith, by linarith⟩
  simp only [rne, hf, if_pos hz]
  norm_num

/-- C `round` sends an exact half `k + 1/2` with `k ≥ 0` upward, away from
zero. -/
theorem cRound_int_add_half {k : Int} (hk : 0 ≤ k) :
    cRound ((k : ℚ) + 1 / 2) = k + 1 := by
  have hk' : (0 : ℚ) ≤ (k : ℚ) := by exact_mod_cast hk
  have h0 : (0 : ℚ) ≤ (k : ℚ) + 1 / 2 := by linarith
  have hcast : (k : ℚ) + 1 / 2 + 1 / 2 = ((k + 1 : Int) : ℚ) := by
    push_cast; ring
  simp only [cRound, if_pos h0, hcast, Int.floor_intCast]

/-- Lower bound on `Int.log 2` from a power of two below `q`. -/
theorem le_log2_of_zpow_le {q : ℚ} {e : Int} (h0 : 0 < q)
    (h : (2 : ℚ) ^ e ≤ q) : e ≤ Int.log 2 q := by
  have h2 : ((2 : ℕ) : ℚ) ^ e ≤ q := by push_cast; exact h
  exact (Int.zpow_le_iff_le_log (by norm_num) h0).mp h2

/-- Upper bound on `Int.log 2` from a power of two above `q`. -/
theorem log2_le_of_lt_zpow {q : ℚ} {e : Int} (h0 : 0 < q)
    (h : q < (2 : ℚ) ^ (e + 1)) : Int.log 2 q ≤ e := by
  have h2 : q < ((2 : ℕ) : ℚ) ^ (e + 1) := by push_cast; exact h
  have h3 := (Int.lt_zpow_iff_log_lt (by norm_num) h0).mp h2
  omega

/-- The ulp exponent of a value whose binade `[2^e, 2^(e+1))` is known and
lies in the binary32 normal range. -/
theorem ulpExp_eq {q : ℚ} {e : Int} (h0 : 0 < q)
    (hlow : (2 : ℚ) ^ e ≤ q) (hhigh : q < (2 : ℚ) ^ (e + 1))
    (hnorm : -126 ≤ e) : ulpExp q = e - 23 := by
  have h1 := le_log2_of_zpow_le h0 hlow
  have h2 := log2_le_of_lt_zpow h0 hhigh
  have hlog : Int.log 2 q = e := le_antisymm h2 h1
  rw [ulpExp, hlog, max_eq_left (by omega)]

/-- Unfolding of `toFloat32` on positive arguments. -/
theorem toFloat32_pos {q : ℚ} (h0 : 0 < q) :
    toFloat32 q = (rne (q / 2 ^ ulpExp q) : ℚ) * 2 ^ ulpExp q := by
  rw [toFloat32, if_neg h0.ne', if_pos h0]

/-- Binary32 rounding is the identity on values that are an integer
multiple of their own ulp. -/
theorem toFloat32_eq_self {q : ℚ} {z : Int} (h0 : 0 < q)
    (hz : (z : ℚ) * 2 ^ ulpExp q = q) : toFloat32 q = q := by
  rw [toFloat32_pos h0]
  generalize hu : ulpExp q = u at hz ⊢
  have hne : (2 : ℚ) ^ u ≠ 0 := zpow_ne_zero _ (by norm_num)
  have hdiv : q / 2 ^ u = (z : ℚ) := by
    rw [← hz, mul_div_assoc, div_self hne, mul_one]
  rw [hdiv, rne_intCast, hz]

/-- Binary32 rounding is the identity on `z·2^t` (`z > 0`) whenever the
value stays below `2^(t+24)`, so that its ulp is at most `2^t`. -/
theorem toFloat32_eq_self_of_bounds {q : ℚ} {z t : Int} (hz : 0 < z)
    (hq : (z : ℚ) * 2 ^ t = q) (hupper : q < (2 : ℚ) ^ (t + 24))
    (ht : -149 ≤ t) : toFloat32 q = q := by
  have h0 : 0 < q := by
    rw [← hq]
    exact mul_pos (by exact_mod_cast hz) (zpow_pos (by norm_num) t)
  have hlog : Int.log 2 q ≤ t + 23 := by
    apply log2_le_of_lt_zpow h0
    rw [show t + 23 + 1 = t + 24 by omega]
    exact hupper
  have hle : ulpExp q ≤ t := by
    rw [ulpExp]
    exact max_le (by omega) (by omega)
  have hpow : ((2 : ℚ) ^ ((t - ulpExp q).toNat) : ℚ) = (2 : ℚ) ^ (t - ulpExp q) := by
    rw [← zpow_natCast (2 : ℚ) (t - ulpExp q).toNat, Int.toNat_of_nonneg (by omega)]
  have key : ((z * 2 ^ (t - ulpExp q).toNat : Int) : ℚ) * 2 ^ ulpExp q = q := by
    push_cast
    rw [hpow, mul_assoc, ← zpow_add₀ (by norm_num : (2 : ℚ) ≠ 0)]
    rw [show t - ulpExp q + ulpExp q = t by omega]
    exact hq
  exact toFloat32_eq_self h0 key

/-- Claim C10, counterexample. At the halfway reading
`16777285 = 35·(2·239675 + 1)` with unit weight `70`, the target's float
pipeline yields the SMALLER multiple's count: `(float)16777285` rounds
(ties to even, ulp 2 above `2^24`) to `16777284`, the single-precision
quotient of `16777284/70` is `15339231/64 = 239675.484375 < 239675.5`, and
C `round` gives `239675 = k`, not `k + 1 = 239676`.  The exact-rational
idealization gives `239676`, so the claim's universally quantified
round-half-up rule is false of the program for large halfway readings. -/
theorem roundAwayFloat_halfway_large_cex :
    2 * 16777285 = (2 * 239675 + 1) * 70 ∧
      roundAwayFloat 16777285 70 = 239675 ∧
      roundAway 16777285 70 = 239676 := by
  refine ⟨by norm_num, ?_, by decide⟩
  have h70 : toFloat32 (70 : ℚ) = 70 := by
    refine toFloat32_eq_self_of_bounds (show (0 : Int) < 70 by norm_num)
      (show ((70 : Int) : ℚ) * 2 ^ (0 : ℤ) = 70 by norm_num) ?_ (by norm_num)
    norm_num
  have hr : toFloat32 (16777285 : ℚ) = 16777284 := by
    have hbin : ulpExp (16777285 : ℚ) = 1 := by
      have h := ulpExp_eq (show (0 : ℚ) < 16777285 by norm_num)
        (show (2 : ℚ) ^ (24 : ℤ) ≤ 16777285 by norm_num)
        (show (16777285 : ℚ) < 2 ^ ((24 : ℤ) + 1) by norm_num)
        (by norm_num)
      simpa using h
    rw [toFloat32_pos (by norm_num), hbin]
    rw [show (16777285 : ℚ) / 2 ^ (1 : ℤ) = ((8388642 : Int) : ℚ) + 1 / 2 by
      push_cast; norm_num]
    rw [rne_int_add_half_even (by decide)]
    push_cast
    norm_num
  have hq2 : toFloat32 ((16777284 : ℚ) / 70) = 15339231 / 64 := by
    have hbin2 : ulpExp ((16777284 : ℚ) / 70) = -6 := by
      have h := ulpExp_eq (show (0 : ℚ) < 16777284 / 70 by norm_num)
        (show (2 : ℚ) ^ (17 : ℤ) ≤ 16777284 / 70 by norm_num)
        (show (16777284 : ℚ) / 70 < 2 ^ ((17 : ℤ) + 1) by norm_num)
        (by norm_num)
      simpa using h
    rw [toFloat32_pos (by norm_num), hbin2]
    rw [show (16777284 : ℚ) / 70 / 2 ^ (-6 : ℤ) = 536873088 / 35 by
      rw [zpow_neg]
      norm_num]
    rw [rne_eq_of_lt
      (show ((15339231 : Int) : ℚ) ≤ 536873088 / 35 by push_cast; norm_num)
      (show (536873088 : ℚ) / 35 < ((15339231 : Int) : ℚ) + 1 / 2 by
        push_cast; norm_num)]
    push_cast
    rw [zpow_neg]
    norm_num
  rw [roundAwayFloat, float32Div]
  push_cast
  rw [hr, h70, hq2]
  rw [cRound, if_pos (by norm_num : (0 : ℚ) ≤ 15339231 / 64)]
  rw [show (15339231 : ℚ) / 64 + 1 / 2 = 15339263 / 64 by norm_num]
  rw [Int.floor_eq_iff]
  constructor <;> norm_num

/-- Claim C10, amended. The single-class rounding rule is round half away
from zero — round half up for non-negative readings — for every halfway
reading below `2^24`: if `0 ≤ reading < 2^24` is exactly halfway between
counts `k` and `k + 1` (that is, `2·reading = (2k+1)·unit_weight`, e.g.
`reading = 35` with `unit_weight = 70`), the candidate count computed by
the target's float pipeline `round((float)reading / unit_weight)` is
`k + 1`, the larger multiple, and the exact-arithmetic idealization
agrees.  Beyond `2^24` the single-precision conversion (ties to even) can
yield the smaller count instead, as the counterexample shows, so the
bound is necessary. -/
theorem roundAwayFloat_half_up (reading unit_weight k : Int)
    (hw : 0 < unit_weight) (hk : 0 ≤ k)
    (hhalf : 2 * reading = (2 * k + 1) * unit_weight)
    (hsmall : reading < 2 ^ 24) :
    roundAwayFloat reading unit_weight = k + 1 ∧
      roundAway reading unit_weight = k + 1 := by
  have hwe : unit_weight % 2 = 0 := by
    have h1 : (2 * reading) % 2 = 0 := by omega
    have h2 : ((2 * k + 1) * unit_weight) % 2 = unit_weight % 2 := by
      rw [Int.mul_emod, show (2 * k + 1) % 2 = 1 by omega, one_mul,
        Int.emod_emod_of_dvd unit_weight (dvd_refl 2)]
    rw [hhalf] at h1
    omega
  obtain ⟨v, hv⟩ : ∃ v, unit_weight = 2 * v := ⟨unit_weight / 2, by omega⟩
  have hv1 : 1 ≤ v := by omega
  set P := (2 * k + 1) * v with hP
  have h3 : 2 * reading = 2 * P := by rw [hhalf, hv, hP]; ring
  have hre : reading = P := by omega
  have hkv1 : v ≤ P := by
    rw [hP]; exact le_mul_of_one_le_left (by omega) (by omega)
  have hkv2 : 2 * k + 1 ≤ P := by
    rw [hP]; exact le_mul_of_one_le_right (by omega) hv1
  have hr1 : (0 : Int) < reading := by omega
  have hsmall' : reading < 16777216 := by norm_num at hsmall; exact hsmall
  have hk24 : 2 * k + 1 < 16777216 := by omega
  have hw25 : unit_weight < 33554432 := by omega
  have hA : toFloat32 (reading : ℚ) = (reading : ℚ) := by
    refine toFloat32_eq_self_of_bounds hr1
      (show ((reading : Int) : ℚ) * 2 ^ (0 : ℤ) = (reading : ℚ) by
        rw [zpow_zero, mul_one]) ?_ (by norm_num)
    rw [show ((2 : ℚ)) ^ ((0 : ℤ) + 24) = 16777216 by norm_num]
    exact_mod_cast hsmall'
  have hA' : toFloat32 (unit_weight : ℚ) = (unit_weight : ℚ) := by
    refine toFloat32_eq_self_of_bounds (show (0 : Int) < v by omega)
      (show ((v : Int) : ℚ) * 2 ^ (1 : ℤ) = (unit_weight : ℚ) by
        rw [zpow_one]; push_cast [hv]; ring) ?_ (by norm_num)
    rw [show ((2 : ℚ)) ^ ((1 : ℤ) + 24) = 33554432 by norm_num]
    exact_mod_cast hw25
  have hwQ : (unit_weight : ℚ) ≠ 0 := by
    exact_mod_cast (by omega : unit_weight ≠ 0)
  have hquot : (reading : ℚ) / (unit_weight : ℚ) = ((2 * k + 1 : Int) : ℚ) / 2 := by
    rw [div_eq_div_iff hwQ (by norm_num : (2 : ℚ) ≠ 0)]
    have hQ : ((2 * reading : Int) : ℚ) = (((2 * k + 1) * unit_weight : Int) : ℚ) := by
      exact_mod_cast hhalf
    push_cast at hQ ⊢
    linarith
  have hB : toFloat32 (((2 * k + 1 : Int) : ℚ) / 2) = ((2 * k + 1 : Int) : ℚ) / 2 := by
    refine toFloat32_eq_self_of_bounds (show (0 : Int) < 2 * k + 1 by omega)
      (show ((2 * k + 1 : Int) : ℚ) * 2 ^ (-1 : ℤ) = ((2 * k + 1 : Int) : ℚ) / 2 by
        rw [zpow_neg, zpow_one, div_eq_mul_inv]) ?_ (by norm_num)
    rw [show ((2 : ℚ)) ^ ((-1 : ℤ) + 24) = 8388608 by norm_num]
    have hc : ((2 * k + 1 : Int) : ℚ) < 16777216 := by exact_mod_cast hk24
    linarith
  constructor
  · rw [roundAwayFloat, float32Div, hA, hA', hquot, hB]
    rw [show ((2 * k + 1 : Int) : ℚ) / 2 = ((k : Int) : ℚ) + 1 / 2 by
      push_cast; ring]
    exact cRound_int_add_half hk
  · have hr0 : 0 ≤ reading := by omega
    rw [roundAway, if_pos hr0]
    have h2 : 2 * reading + unit_weight = (k + 1) * (2 * unit_weight) := by
      linear_combination hhalf
    rw [h2]
    exact Int.mul_tdiv_cancel (k + 1) (by omega)

/-- Witness for `roundAwayFloat_half_up` at the halfway reading `35` with
unit weight `70`: both the float pipeline and the idealization give count
`1`, not `0`. -/
theorem roundAwayFloat_half_up_witness :
    roundAwayFloat 35 70 = 0 + 1 ∧ roundAway 35 70 = 0 + 1 :=
  roundAwayFloat_half_up 35 70 0 (by decide) (by decide) (by decide) (by decide)

/-- Claim C5. In a ready cycle whose first non-negative reading is
`Unresolved`, the policy consumes exactly one additional fresh reading and
re-resolves it: if the second resolution succeeds, the cycle outcome is
`Accepted` with the second resolution's count and the escalation flag is
cleared; if it also fails, the outcome is `Confirmed Failure` (the error
screen) and the escalation flag is set (the buzzer is started if not
already on); exactly two samples are consumed, so no third attempt is made
within the cycle. -/
theorem processScaleReading_retry (r1 r2 : Int) (isBuzzerOn : Bool)
    (hr1 : 0 ≤ r1) (hfail : calculateFabricObjectCount r1 = none) :
    (processScaleReading true r1 r2 isBuzzerOn).2.2 = 2 ∧
      (∀ c : Int, calculateFabricObjectCount r2 = some c →
        processScaleReading true r1 r2 isBuzzerOn = (.accepted c, false, 2)) ∧
      (calculateFabricObjectCount r2 = none →
        processScaleReading true r1 r2 isBuzzerOn
          = (.confirmedFailure, true, 2)) := by
  have hneg : ¬(r1 < 0) := by omega
  cases hc2 : calculateFabricObjectCount r2 with
  | some c =>
    refine ⟨?_, ?_, ?_⟩
    · simp [processScaleReading, hfail, hneg, hc2]
    · intro c' hc'
      obtain rfl := Option.some_inj.mp hc'
      simp [processScaleReading, hfail, hneg, hc2]
    · intro hcon
      exact Option.noConfusion hcon
  | none =>
    refine ⟨?_, ?_, ?_⟩
    · simp [processScaleReading, hfail, hneg, hc2]
    · intro c' hc'
      exact Option.noConfusion hc'
    · intro _
      simp [processScaleReading, hfail, hneg, hc2]

/-- Witness for `processScaleReading_retry` at the spec scenario: first
reading `1` is `Unresolved`, second reading `140` resolves to `2`; the
cycle is `Accepted` with count `2` and the flag (previously set) is
cleared. -/
theorem processScaleReading_retry_witness :
    processScaleReading true 1 140 true = (.accepted 2, false, 2) :=
  (processScaleReading_retry 1 140 true (by decide) (by decide)).2.1 2 (by decide)

/-- Claim C6, counterexample. A cycle ending in the negative-reading abort
DOES clear the sticky escalation flag: the negative-reading branch of
`processScaleReading` calls `deactivateBuzzer()`.  Starting a cycle with
the flag set, the tare button low, and reading `−1`, the outcome is the
abort — neither an `Accepted` cycle nor a manual-reset signal — and the
flag comes out cleared. -/
theorem tick_negative_clears_cex :
    tick ⟨true, false, -1, 0⟩ true = (.aborted, false) := by decide

/-- A cycle can clear a set escalation flag only through the manual tare
button, an accepted resolution, or the negative-reading abort. -/
theorem tick_clear_classification (inp : CycleInput) :
    (tick inp true).2 = false →
    inp.tarePressed = true ∨ isAccepted (tick inp true).1 = true ∨
      (tick inp true).1 = .aborted := by
  obtain ⟨ready, tare, r1, r2⟩ := inp
  cases tare with
  | true => intro _; left; rfl
  | false =>
    intro hflag
    cases ready with
    | false => simp [tick, processScaleReading] at hflag
    | true =>
      by_cases hneg : r1 < 0
      · right; right; simp [tick, processScaleReading, hneg]
      · cases hc1 : calculateFabricObjectCount r1 with
        | some c =>
          right; left
          simp [tick, processScaleReading, hneg, hc1, isAccepted]
        | none =>
          cases hc2 : calculateFabricObjectCount r2 with
          | some c =>
            right; left
            simp [tick, processScaleReading, hneg, hc1, hc2, isAccepted]
          | none =>
            exfalso
            simp [tick, processScaleReading, hneg, hc1, hc2] at hflag

/-- A cycle without a tare press whose outcome is neither accepted nor the
negative-reading abort leaves a set escalation flag set. -/
theorem tick_preserves_flag (inp : CycleInput)
    (htare : inp.tarePressed = false)
    (hacc : isAccepted (tick inp true).1 = false)
    (hab : (tick inp true).1 ≠ .aborted) :
    (tick inp true).2 = true := by
  by_contra hflag
  rw [Bool.not_eq_true] at hflag
  rcases tick_clear_classification inp hflag with h | h | h
  · rw [htare] at h; exact Bool.noConfusion h
  · rw [hacc] at h; exact Bool.noConfusion h
  · exact hab h

/-- Across a run of cycles none of which presses tare, accepts, or aborts
on a negative reading, a set escalation flag stays set. -/
theorem runFlag_stays_true (inputs : List CycleInput)
    (h : ∀ inp ∈ inputs, inp.tarePressed = false ∧
      isAccepted (tick inp true).1 = false ∧ (tick inp true).1 ≠ .aborted) :
    runFlag inputs true = true := by
  induction inputs with
  | nil => rfl
  | cons inp rest ih =>
    obtain ⟨h1, h2, h3⟩ := h inp (List.mem_cons_self inp rest)
    simp only [runFlag, List.foldl_cons]
    rw [tick_preserves_flag inp h1 h2 h3]
    exact ih fun i hi => h i (List.mem_cons_of_mem inp hi)

/-- Claim C6, amended. The sticky escalation flag, once set by a Confirmed
Failure cycle, remains set across all subsequent cycles until an
`Accepted` cycle, a manual-reset (tare button) signal, or a
negative-reading abort clears it; Unavailable and Confirmed-Failure
cycles leave it set.  (The original claim excluded the negative-reading
abort from the clearing events; the code's negative branch calls
`deactivateBuzzer()`.) -/
theorem sticky_flag_scope (inp : CycleInput) (inputs : List CycleInput) :
    ((tick inp true).2 = false →
      inp.tarePressed = true ∨ isAccepted (tick inp true).1 = true ∨
        (tick inp true).1 = .aborted) ∧
    ((∀ i ∈ inputs, i.tarePressed = false ∧ isAccepted (tick i true).1 = false ∧
        (tick i true).1 ≠ .aborted) →
      runFlag inputs true = true) :=
  ⟨tick_clear_classification inp, runFlag_stays_true inputs⟩

/-- Witness for `sticky_flag_scope`: a run consisting of one confirmed
failure cycle (both readings unresolved, no tare press) keeps the flag
set. -/
theorem sticky_flag_scope_witness :
    runFlag [⟨true, false, 1, 1⟩] true = true :=
  (sticky_flag_scope ⟨true, false, 1, 1⟩ [⟨true, false, 1, 1⟩]).2 (by decide)

/-- Claim C7, counterexample. In the dual-class sketch (`Magazzino.ino`) a
negative reading does NOT abort the cycle before resolution: the
negative-reading branch tares the scale but does not return, the search
then runs on the stale negative reading, and at `reading = −1` it finds
`(0, 0)` (adjusted remainder `0` at `delta = 1`), which the display
condition `count_fabric >= 0 && count_reused >= 0` accepts — counts are
emitted for a negative reading. -/
theorem magazzinoLoop_negative_cex :
    magazzinoLoop true false (-1) = (true, some (0, 0)) := by decide

/-- Claim C7, amended. In the single-class system
(`AutomaticInventory.ino`), a negative first reading causes an immediate
auto-tare and cycle abort before any resolution is attempted: exactly one
sample is consumed, the outcome carries no counts, no third state is
reached, and the result does not depend on the second sample (the retry
logic is never entered).  In the dual-class system (`Magazzino.ino`),
the negative reading triggers the auto-tare but does not abort: the search
still runs on the negative reading and can emit counts. -/
theorem negative_reading_policy (r r2 r2' : Int) (isBuzzerOn : Bool)
    (hr : r < 0) :
    processScaleReading true r r2 isBuzzerOn = (.aborted, false, 1) ∧
      processScaleReading true r r2 isBuzzerOn
        = processScaleReading true r r2' isBuzzerOn ∧
      magazzinoLoop true false (-1) = (true, some (0, 0)) := by
  have h1 : processScaleReading true r r2 isBuzzerOn = (.aborted, false, 1) := by
    simp [processScaleReading, hr]
  have h1' : processScaleReading true r r2' isBuzzerOn = (.aborted, false, 1) := by
    simp [processScaleReading, hr]
  exact ⟨h1, h1.trans h1'.symm, by decide⟩

/-- Witness for `negative_reading_policy` at reading `−5`. -/
theorem negative_reading_policy_witness :
    processScaleReading true (-5) 3 true = (.aborted, false, 1) :=
  (negative_reading_policy (-5) 3 7 true (by decide)).1

end Weigence
